import Mathlib

/-!
Shallow embedding of the name-similarity engine of
`src/unique_variable_names.cpp`: the rolling two-row LCS dynamic program of
`similarityMetric`, the full-table subsequence reconstruction of
`longestCommonSubstring`, and the pairwise matching loops of
`Traversal::processNames`.

Modelling conventions: C strings are `List Char`; the C `float` results are
modelled by their exact rational value in `ℚ` (for a division by zero, where C
produces `inf`/`NaN`, the `ℚ` convention `x / 0 = 0` is used; the theorems below
only depend on comparisons where the two semantics select the same branch of the
program); the C arrays of `unsigned` are modelled as index functions `Nat → Nat`.
-/

set_option maxRecDepth 4000

namespace UniqueVariableNames

/-- Character handed back by an out-of-range array read.  Every read the proofs
below depend on is shown to be in range, so the choice is immaterial. -/
def nulChar : Char := Char.ofNat 0

/-- Inner loop of `similarityMetric` (source lines 71-81): entry `k` of the row
`next` obtained from the row `previous` after consuming the character `ch` of
`str2`: `next[0]` stays `0`, `next[k] = previous[k-1] + 1` when
`str1[k-1] == ch`, else `max previous[k] next[k-1]`. -/
def simRowNext (str1 : List Char) (previous : Nat → Nat) (ch : Char) : Nat → Nat
  | 0 => 0
  | k + 1 =>
    if str1.getD k nulChar = ch then previous k + 1
    else max (previous (k + 1)) (simRowNext str1 previous ch k)

/-- Outer loop of `similarityMetric`: the `previous` row left after the rolling
pair of rows (swapped once per iteration) has consumed all of `str2`. -/
def simFinalRow (str1 str2 : List Char) : Nat → Nat :=
  str2.foldl (simRowNext str1) (fun _ => 0)

/-- `previous[len1]` read out at source line 83: the LCS length the rolling
dynamic program of `similarityMetric` computes. -/
def simLcsLen (str1 str2 : List Char) : Nat :=
  simFinalRow str1 str2 str1.length

/-- The LCS length `similarityMetric strX strY` works with, after its internal
swap placing the longer argument first (source lines 55-56: ties put `strY`
first, which changes nothing since the computation is symmetric on equal
lengths). -/
def similarityLcsLen (strX strY : List Char) : Nat :=
  simLcsLen (if strX.length > strY.length then strX else strY)
    (if strX.length > strY.length then strY else strX)

/-- `similarityMetric` (source lines 49-89): order the two strings so `str1` is
the longer, return `0.0` when either is empty, else the rolling-DP LCS length
divided by `len1`, the longer length. -/
def similarityMetric (strX strY : List Char) : ℚ :=
  let str1 := if strX.length > strY.length then strX else strY
  let str2 := if strX.length > strY.length then strY else strX
  if str1.length = 0 ∨ str2.length = 0 then 0
  else (simLcsLen str1 str2 : ℚ) / (str1.length : ℚ)

/-- `#define MAX_LCS 256` (source line 19): size of the static `lcs` buffer. -/
def MAX_LCS : Nat := 256

/-- One row update of the full table of `longestCommonSubstring` (source lines
110-115): entry `c` of row `r+1` from row `prev = align[r]` and the row
character `ch = str2[r]`. -/
def alignStep (str1 : List Char) (prev : Nat → Nat) (ch : Char) : Nat → Nat
  | 0 => 0
  | c + 1 =>
    if str1.getD c nulChar = ch then prev c + 1
    else max (prev (c + 1)) (alignStep str1 prev ch c)

/-- The full DP table `align` of `longestCommonSubstring`: `align str1 str2 r c`
is the entry `align[r][c]` (rows indexed by `str2`, columns by `str1`; row `0`
and column `0` are the `calloc`ed zeros). -/
def align (str1 str2 : List Char) : Nat → Nat → Nat
  | 0 => fun _ => 0
  | r + 1 => alignStep str1 (align str1 str2 r) (str2.getD r nulChar)

/-- The backtracking loop of `longestCommonSubstring` (source lines 117-135),
started at position `(r, c)` of the table.  Returns the characters written into
`lcs[0..align[r][c])` (in buffer order) paired with the list of buffer indices
written, in write order.  `fuel` bounds the number of iterations; `none` models
divergence of the C loop: either no branch applies in an iteration (the body
changes nothing and the loop spins forever) or the iteration bound is exceeded.
Both are proved impossible below for every table built by the recurrence. -/
def lcsBack (str1 str2 : List Char) : Nat → Nat → Nat → Option (List Char × List Nat)
  | 0, _, _ => none
  | fuel + 1, r, c =>
    let i := align str1 str2 r c
    if 0 < i ∧ 0 < r ∧ 0 < c then
      if align str1 str2 (r - 1) c = i then
        lcsBack str1 str2 fuel (r - 1) c
      else if align str1 str2 r (c - 1) = i then
        lcsBack str1 str2 fuel r (c - 1)
      else if align str1 str2 (r - 1) (c - 1) = i - 1 then
        (lcsBack str1 str2 fuel (r - 1) (c - 1)).map
          (fun p => (p.1 ++ [str2.getD (r - 1) nulChar], (i - 1) :: p.2))
      else none
    else some ([], [])

/-- `longestCommonSubstring` (source lines 95-143).  `none` models the `NULL`
returned for an empty input (the "no common content" sentinel) as well as the
divergence marker of `lcsBack`, which is proved unreachable; `some l` is the
reconstructed common subsequence read from the `lcs` buffer. -/
def longestCommonSubstring (str1 str2 : List Char) : Option (List Char) :=
  if str1.length = 0 ∨ str2.length = 0 then none
  else
    (lcsBack str1 str2 (str2.length + str1.length + 1) str2.length str1.length).map
      Prod.fst

/-- The indices written into the static `char lcs[MAX_LCS]` buffer during one
call of `longestCommonSubstring`, in write order: nothing for the early empty
return, else the terminator store `lcs[align[len2][len1]] = 0` followed by the
stores of the backtracking loop. -/
def lcsBufferWrites (str1 str2 : List Char) : Option (List Nat) :=
  if str1.length = 0 ∨ str2.length = 0 then some []
  else
    (lcsBack str1 str2 (str2.length + str1.length + 1) str2.length str1.length).map
      (fun p => align str1 str2 str2.length str1.length :: p.2)

/-- The pruning bound of `Traversal::processNames` (source lines 329-339):
`j_length / i_length`, inverted when above `1`, so that it never exceeds `1`.
In C a zero `i_length` gives `inf` (or `NaN` when `j_length` is also zero); in
`ℚ` the quotient is `0`.  In every such case both semantics lead to the same
emission decision for the pair, since the similarity of a pair with an empty
name is `0`. -/
def greatestPossibleSimilarity (iName jName : List Char) : ℚ :=
  let ratio : ℚ := (jName.length : ℚ) / (iName.length : ℚ)
  if 1 < ratio then 1 / ratio else ratio

/-- The double loop of `Traversal::processNames` (source lines 285-388) over the
collected name list, with the scope statement and AST bookkeeping (out of scope
here) dropped: visit all pairs of positions, skip the pair unless `i < j`
(lower-triangular selection; the source uses 1-based indices, here 0-based
positions in the list), skip it when the pruning bound is below the threshold,
compute the similarity of the two names in `(i, j)` order and record the pair
when it strictly exceeds the threshold.  A recorded pair of `NameStructure`s is
represented by its pair of list positions. -/
def processNames (nameList : List (List Char)) (similarity_threshold : ℚ) :
    List (Nat × Nat) :=
  (List.range nameList.length).flatMap (fun i =>
    (List.range nameList.length).filterMap (fun j =>
      if j ≤ i then none
      else if greatestPossibleSimilarity (nameList.getD i []) (nameList.getD j [])
          < similarity_threshold then none
      else if similarity_threshold
          < similarityMetric (nameList.getD i []) (nameList.getD j []) then some (i, j)
      else none))

/-- The pairs of positions that survive the lower-triangular test of
`processNames`, in visiting order (outer index ascending, inner ascending). -/
def consideredPairs (n : Nat) : List (Nat × Nat) :=
  (List.range n).flatMap (fun i =>
    (List.range n).filterMap (fun j => if j ≤ i then none else some (i, j)))

/-- Reference LCS length of two strings, peeling characters from the front
(the specification-side yardstick the DP implementations are measured by). -/
def lcsSpec : List Char → List Char → Nat
  | [], _ => 0
  | _ :: _, [] => 0
  | x :: xs, y :: ys =>
    if x = y then lcsSpec xs ys + 1
    else max (lcsSpec xs (y :: ys)) (lcsSpec (x :: xs) ys)

/-- `n` is the length of a longest common subsequence of `a` and `b`: some
common subsequence has length `n` and none is longer. -/
def IsMaxLcsLen (a b : List Char) (n : Nat) : Prop :=
  (∃ l : List Char, l.Sublist a ∧ l.Sublist b ∧ l.length = n) ∧
    ∀ l : List Char, l.Sublist a → l.Sublist b → l.length ≤ n

/-! ### Longest-common-subsequence theory for the reference function `lcsSpec` -/

theorem lcsSpec_nil_right (xs : List Char) : lcsSpec xs [] = 0 := by
  cases xs <;> simp [lcsSpec]

theorem isMaxLcsLen_unique {a b : List Char} {n m : Nat}
    (h1 : IsMaxLcsLen a b n) (h2 : IsMaxLcsLen a b m) : n = m := by
  obtain ⟨⟨l1, h1a, h1b, h1len⟩, hmax1⟩ := h1
  obtain ⟨⟨l2, h2a, h2b, h2len⟩, hmax2⟩ := h2
  have g1 := hmax1 l2 h2a h2b
  have g2 := hmax2 l1 h1a h1b
  omega

theorem isMaxLcsLen_comm {a b : List Char} {n : Nat}
    (h : IsMaxLcsLen a b n) : IsMaxLcsLen b a n := by
  obtain ⟨⟨l, ha, hb, hlen⟩, hmax⟩ := h
  exact ⟨⟨l, hb, ha, hlen⟩, fun l hb ha => hmax l ha hb⟩

theorem isMaxLcsLen_reverse {a b : List Char} {n : Nat}
    (h : IsMaxLcsLen a.reverse b.reverse n) : IsMaxLcsLen a b n := by
  obtain ⟨⟨l, ha, hb, hlen⟩, hmax⟩ := h
  refine ⟨⟨l.reverse, ?_, ?_, by simpa using hlen⟩, ?_⟩
  · have g : l.reverse.Sublist a.reverse.reverse := List.reverse_sublist.mpr ha
    simpa using g
  · have g : l.reverse.Sublist b.reverse.reverse := List.reverse_sublist.mpr hb
    simpa using g
  · intro l2 h2a h2b
    have g := hmax l2.reverse (List.reverse_sublist.mpr h2a) (List.reverse_sublist.mpr h2b)
    simpa using g

theorem lcsSpec_isMax (a b : List Char) : IsMaxLcsLen a b (lcsSpec a b) := by
  have H : ∀ n (a b : List Char), a.length + b.length ≤ n →
      IsMaxLcsLen a b (lcsSpec a b) := by
    intro n
    induction n with
    | zero =>
      intro a b hab
      have ha : a = [] := by cases a <;> simp_all
      have hb : b = [] := by cases b <;> simp_all
      subst ha; subst hb
      exact ⟨⟨[], List.nil_sublist _, List.nil_sublist _, by simp [lcsSpec]⟩,
        fun l hl _ => by simp [List.sublist_nil.mp hl, lcsSpec]⟩
    | succ n ih =>
      intro a b hab
      cases a with
      | nil =>
        exact ⟨⟨[], List.nil_sublist _, List.nil_sublist _, by simp [lcsSpec]⟩,
          fun l hl _ => by simp [List.sublist_nil.mp hl, lcsSpec]⟩
      | cons x xs =>
        cases b with
        | nil =>
          exact ⟨⟨[], List.nil_sublist _, List.nil_sublist _, by simp [lcsSpec_nil_right]⟩,
            fun l _ hl => by simp [List.sublist_nil.mp hl, lcsSpec_nil_right]⟩
        | cons y ys =>
          by_cases hxy : x = y
          · subst hxy
            have hval : lcsSpec (x :: xs) (x :: ys) = lcsSpec xs ys + 1 := by
              simp [lcsSpec]
            have hsum : xs.length + ys.length ≤ n := by
              simp only [List.length_cons] at hab; omega
            obtain ⟨⟨l0, hl0a, hl0b, hl0len⟩, hmax0⟩ := ih xs ys hsum
            constructor
            · exact ⟨x :: l0, hl0a.cons₂ x, hl0b.cons₂ x, by simp [hl0len, hval]⟩
            · intro l hl1 hl2
              rw [hval]
              cases l with
              | nil => simp
              | cons z l1 =>
                cases hl1 with
                | cons w1 h1 =>
                  cases hl2 with
                  | cons w2 h2 =>
                    have g := hmax0 (z :: l1) h1 h2
                    omega
                  | cons₂ w2 h2 =>
                    have h1t : l1.Sublist xs := (List.sublist_cons_self _ l1).trans h1
                    have g := hmax0 l1 h1t h2
                    simp only [List.length_cons]
                    omega
                | cons₂ w1 h1 =>
                  cases hl2 with
                  | cons w2 h2 =>
                    have h2t : l1.Sublist ys := (List.sublist_cons_self _ l1).trans h2
                    have g := hmax0 l1 h1 h2t
                    simp only [List.length_cons]
                    omega
                  | cons₂ w2 h2 =>
                    have g := hmax0 l1 h1 h2
                    simp only [List.length_cons]
                    omega
          · have hval : lcsSpec (x :: xs) (y :: ys) =
                max (lcsSpec xs (y :: ys)) (lcsSpec (x :: xs) ys) := by
              simp [lcsSpec, hxy]
            have hs1 : xs.length + (y :: ys).length ≤ n := by
              simp only [List.length_cons] at hab ⊢; omega
            have hs2 : (x :: xs).length + ys.length ≤ n := by
              simp only [List.length_cons] at hab ⊢; omega
            constructor
            · rcases max_choice (lcsSpec xs (y :: ys)) (lcsSpec (x :: xs) ys) with hm | hm
              · obtain ⟨⟨l0, hl0a, hl0b, hl0len⟩, _⟩ := ih xs (y :: ys) hs1
                exact ⟨l0, hl0a.cons x, hl0b, by rw [hval, hm, hl0len]⟩
              · obtain ⟨⟨l0, hl0a, hl0b, hl0len⟩, _⟩ := ih (x :: xs) ys hs2
                exact ⟨l0, hl0a, hl0b.cons y, by rw [hval, hm, hl0len]⟩
            · intro l hl1 hl2
              rw [hval]
              cases l with
              | nil => simp
              | cons z l1 =>
                cases hl1 with
                | cons w1 h1 =>
                  have g := (ih xs (y :: ys) hs1).2 (z :: l1) h1 hl2
                  exact g.trans (le_max_left _ _)
                | cons₂ w1 h1 =>
                  cases hl2 with
                  | cons w2 h2 =>
                    have g := (ih (x :: xs) ys hs2).2 (x :: l1) (h1.cons₂ x) h2
                    exact g.trans (le_max_right _ _)
                  | cons₂ w2 h2 => exact absurd rfl hxy
  exact H (a.length + b.length) a b le_rfl

/-! ### The full table `align` computes longest-common-subsequence lengths -/

theorem align_zero_right (a b : List Char) (r : Nat) : align a b r 0 = 0 := by
  cases r <;> rfl

theorem align_succ (a b : List Char) (r c : Nat) :
    align a b (r + 1) (c + 1) =
      if a.getD c nulChar = b.getD r nulChar then align a b r c + 1
      else max (align a b r (c + 1)) (align a b (r + 1) c) := rfl

theorem take_succ_reverse (a : List Char) (c : Nat) (hc : c < a.length) :
    (a.take (c + 1)).reverse = a.getD c nulChar :: (a.take c).reverse := by
  have hx : a[c]? = some (a.getD c nulChar) := by
    rw [List.getElem?_eq_getElem hc, List.getD_eq_getElem _ _ hc]
  rw [List.take_succ, hx]
  simp

theorem align_eq_lcsSpec (a b : List Char) :
    ∀ r c, r ≤ b.length → c ≤ a.length →
      align a b r c = lcsSpec ((a.take c).reverse) ((b.take r).reverse) := by
  intro r
  induction r with
  | zero =>
    intro c _ _
    simp [align, lcsSpec_nil_right]
  | succ r ihr =>
    intro c
    induction c with
    | zero =>
      intro _ _
      rw [align_zero_right]
      simp [lcsSpec]
    | succ c ihc =>
      intro hr hc
      rw [align_succ, take_succ_reverse a c (by omega), take_succ_reverse b r (by omega)]
      simp only [lcsSpec]
      by_cases hxy : a.getD c nulChar = b.getD r nulChar
      · rw [if_pos hxy, if_pos hxy, ihr c (by omega) (by omega)]
      · rw [if_neg hxy, if_neg hxy]
        have e1 := ihr (c + 1) (by omega) hc
        rw [take_succ_reverse a c (by omega)] at e1
        have e2 := ihc (by omega) (by omega)
        rw [take_succ_reverse b r (by omega)] at e2
        rw [e1, e2, Nat.max_comm]

theorem align_isMax (a b : List Char) :
    IsMaxLcsLen a b (align a b b.length a.length) := by
  have h := align_eq_lcsSpec a b b.length a.length le_rfl le_rfl
  rw [List.take_length, List.take_length] at h
  rw [h]
  exact isMaxLcsLen_reverse (lcsSpec_isMax a.reverse b.reverse)

/-! ### The rolling two-row program of `similarityMetric` agrees with the table -/

theorem simRowNext_eq_alignStep (s1 : List Char) (prev : Nat → Nat) (ch : Char) :
    ∀ k, simRowNext s1 prev ch k = alignStep s1 prev ch k := by
  intro k
  induction k with
  | zero => rfl
  | succ k ih => simp only [simRowNext, alignStep, ih]

theorem align_append (a ys zs : List Char) :
    ∀ r, r ≤ ys.length → ∀ c, align a (ys ++ zs) r c = align a ys r c := by
  intro r
  induction r with
  | zero => intro _ c; rfl
  | succ r ih =>
    intro hr c
    have hch : (ys ++ zs).getD r nulChar = ys.getD r nulChar :=
      List.getD_append _ _ _ _ (by omega)
    have hrow : align a (ys ++ zs) r = align a ys r := funext (ih (by omega))
    show alignStep a (align a (ys ++ zs) r) ((ys ++ zs).getD r nulChar) c =
      alignStep a (align a ys r) (ys.getD r nulChar) c
    rw [hch, hrow]

theorem simFinalRow_eq_align (a b : List Char) :
    simFinalRow a b = align a b b.length := by
  induction b using List.reverseRecOn with
  | nil => rfl
  | append_singleton ys ch ih =>
    have h1 : simFinalRow a (ys ++ [ch]) = simRowNext a (simFinalRow a ys) ch := by
      simp [simFinalRow, List.foldl_append]
    have hch : (ys ++ [ch]).getD ys.length nulChar = ch := by
      rw [List.getD_append_right _ _ _ _ le_rfl]
      simp
    have hpref : align a (ys ++ [ch]) ys.length = align a ys ys.length :=
      funext (align_append a ys [ch] ys.length le_rfl)
    have hlen : (ys ++ [ch]).length = ys.length + 1 := by simp
    rw [h1, ih, hlen]
    show simRowNext a (align a ys ys.length) ch =
      alignStep a (align a (ys ++ [ch]) ys.length) ((ys ++ [ch]).getD ys.length nulChar)
    rw [hch, hpref]
    exact funext (simRowNext_eq_alignStep a (align a ys ys.length) ch)

theorem simLcsLen_eq_align (a b : List Char) :
    simLcsLen a b = align a b b.length a.length := by
  unfold simLcsLen
  rw [simFinalRow_eq_align]

theorem simLcsLen_isMax (a b : List Char) : IsMaxLcsLen a b (simLcsLen a b) := by
  rw [simLcsLen_eq_align]
  exact align_isMax a b

theorem similarityLcsLen_isMax (x y : List Char) :
    IsMaxLcsLen x y (similarityLcsLen x y) := by
  unfold similarityLcsLen
  by_cases h : x.length > y.length
  · simp only [if_pos h]
    exact simLcsLen_isMax x y
  · simp only [if_neg h]
    exact isMaxLcsLen_comm (simLcsLen_isMax y x)

theorem isMaxLcsLen_le_left {a b : List Char} {n : Nat}
    (h : IsMaxLcsLen a b n) : n ≤ a.length := by
  obtain ⟨⟨l, ha, _, hlen⟩, _⟩ := h
  simpa [hlen] using ha.length_le

theorem isMaxLcsLen_le_right {a b : List Char} {n : Nat}
    (h : IsMaxLcsLen a b n) : n ≤ b.length := by
  obtain ⟨⟨l, _, hb, hlen⟩, _⟩ := h
  simpa [hlen] using hb.length_le

/-! ### A closed form for `similarityMetric` -/

theorem similarityMetric_eq (x y : List Char) :
    similarityMetric x y =
      if x.length = 0 ∨ y.length = 0 then 0
      else (similarityLcsLen x y : ℚ) / ((max x.length y.length : Nat) : ℚ) := by
  unfold similarityMetric similarityLcsLen
  by_cases h : x.length > y.length
  · simp only [if_pos h]
    rw [Nat.max_eq_left (Nat.le_of_lt h)]
  · simp only [if_neg h]
    rw [Nat.max_eq_right (Nat.le_of_not_lt h)]
    exact if_congr or_comm rfl rfl

/-! ### Correctness and termination of the backtracking loop -/

theorem take_succ_getD (a : List Char) (c : Nat) (hc : c < a.length) :
    a.take (c + 1) = a.take c ++ [a.getD c nulChar] := by
  have hx : a[c]? = some (a.getD c nulChar) := by
    rw [List.getElem?_eq_getElem hc, List.getD_eq_getElem _ _ hc]
  rw [List.take_succ, hx]
  rfl

theorem take_sublist_succ (a : List Char) (c : Nat) :
    (a.take c).Sublist (a.take (c + 1)) := by
  have h := List.take_sublist c (a.take (c + 1))
  rwa [List.take_take, min_eq_left (by omega)] at h

theorem lcsBack_succ (a b : List Char) (fuel r c : Nat) :
    lcsBack a b (fuel + 1) r c =
      if 0 < align a b r c ∧ 0 < r ∧ 0 < c then
        if align a b (r - 1) c = align a b r c then lcsBack a b fuel (r - 1) c
        else if align a b r (c - 1) = align a b r c then lcsBack a b fuel r (c - 1)
        else if align a b (r - 1) (c - 1) = align a b r c - 1 then
          (lcsBack a b fuel (r - 1) (c - 1)).map
            (fun p => (p.1 ++ [b.getD (r - 1) nulChar], (align a b r c - 1) :: p.2))
        else none
      else some ([], []) := rfl

theorem range_reverse_succ {i : Nat} (hi : 0 < i) :
    (List.range i).reverse = (i - 1) :: (List.range (i - 1)).reverse := by
  obtain ⟨j, rfl⟩ : ∃ j, i = j + 1 := ⟨i - 1, by omega⟩
  rw [List.range_succ]
  simp

theorem lcsBack_main (a b : List Char) :
    ∀ fuel r c, r ≤ b.length → c ≤ a.length → r + c < fuel →
      ∃ l : List Char,
        lcsBack a b fuel r c = some (l, (List.range (align a b r c)).reverse) ∧
        l.Sublist (a.take c) ∧ l.Sublist (b.take r) ∧ l.length = align a b r c := by
  intro fuel
  induction fuel with
  | zero => intro r c _ _ hf; omega
  | succ fuel ih =>
    intro r c hr hc hf
    by_cases hg : 0 < align a b r c ∧ 0 < r ∧ 0 < c
    · obtain ⟨hi, hr0, hc0⟩ := hg
      obtain ⟨r1, rfl⟩ : ∃ r1, r = r1 + 1 := ⟨r - 1, by omega⟩
      obtain ⟨c1, rfl⟩ : ∃ c1, c = c1 + 1 := ⟨c - 1, by omega⟩
      by_cases hb1 : align a b r1 (c1 + 1) = align a b (r1 + 1) (c1 + 1)
      · obtain ⟨l, hsome, hsa, hsb, hlen⟩ := ih r1 (c1 + 1) (by omega) hc (by omega)
        refine ⟨l, ?_, hsa, hsb.trans (take_sublist_succ b r1), by rw [hlen, hb1]⟩
        rw [lcsBack_succ, if_pos ⟨hi, by omega, by omega⟩]
        simp only [Nat.add_sub_cancel]
        rw [if_pos hb1, hsome, hb1]
      · by_cases hb2 : align a b (r1 + 1) c1 = align a b (r1 + 1) (c1 + 1)
        · obtain ⟨l, hsome, hsa, hsb, hlen⟩ := ih (r1 + 1) c1 hr (by omega) (by omega)
          refine ⟨l, ?_, hsa.trans (take_sublist_succ a c1), hsb, by rw [hlen, hb2]⟩
          rw [lcsBack_succ, if_pos ⟨hi, by omega, by omega⟩]
          simp only [Nat.add_sub_cancel]
          rw [if_neg hb1, if_pos hb2, hsome, hb2]
        · have hrec := align_succ a b r1 c1
          by_cases hch : a.getD c1 nulChar = b.getD r1 nulChar
          · rw [if_pos hch] at hrec
            have hdiag : align a b r1 c1 = align a b (r1 + 1) (c1 + 1) - 1 := by omega
            obtain ⟨l, hsome, hsa, hsb, hlen⟩ := ih r1 c1 (by omega) (by omega) (by omega)
            refine ⟨l ++ [b.getD r1 nulChar], ?_, ?_, ?_, ?_⟩
            · rw [lcsBack_succ, if_pos ⟨hi, by omega, by omega⟩]
              simp only [Nat.add_sub_cancel]
              rw [if_neg hb1, if_neg hb2, if_pos hdiag, hsome]
              simp only [Option.map_some']
              rw [range_reverse_succ hi, hdiag]
            · rw [take_succ_getD a c1 (by omega), hch]
              exact hsa.append (List.Sublist.refl _)
            · rw [take_succ_getD b r1 (by omega)]
              exact hsb.append (List.Sublist.refl _)
            · simp only [List.length_append, List.length_singleton]
              omega
          · rw [if_neg hch] at hrec
            rcases max_choice (align a b r1 (c1 + 1)) (align a b (r1 + 1) c1) with hm | hm
            · rw [hm] at hrec
              exact absurd hrec.symm hb1
            · rw [hm] at hrec
              exact absurd hrec.symm hb2
    · have hz : align a b r c = 0 := by
        rcases Nat.eq_zero_or_pos (align a b r c) with h0 | h0
        · exact h0
        · rcases Nat.eq_zero_or_pos r with hr1 | hr1
          · subst hr1; rfl
          · rcases Nat.eq_zero_or_pos c with hc1 | hc1
            · subst hc1; exact align_zero_right a b r
            · exact absurd ⟨h0, hr1, hc1⟩ hg
      refine ⟨[], ?_, List.nil_sublist _, List.nil_sublist _, by simp [hz]⟩
      rw [lcsBack_succ, if_neg hg, hz]
      simp

theorem lcsBack_full (a b : List Char) :
    ∃ l : List Char,
      lcsBack a b (b.length + a.length + 1) b.length a.length =
        some (l, (List.range (align a b b.length a.length)).reverse) ∧
      l.Sublist a ∧ l.Sublist b ∧ l.length = align a b b.length a.length := by
  obtain ⟨l, h1, h2, h3, h4⟩ :=
    lcsBack_main a b (b.length + a.length + 1) b.length a.length le_rfl le_rfl (by omega)
  rw [List.take_length] at h2 h3
  exact ⟨l, h1, h2, h3, h4⟩

theorem similarityLcsLen_eq_align (a b : List Char) :
    similarityLcsLen a b = align a b b.length a.length :=
  isMaxLcsLen_unique (similarityLcsLen_isMax a b) (align_isMax a b)

/-! ### The pruning bound dominates the similarity -/

theorem greatestPossibleSimilarity_eq (x y : List Char) :
    greatestPossibleSimilarity x y =
      ((min x.length y.length : Nat) : ℚ) / ((max x.length y.length : Nat) : ℚ) := by
  unfold greatestPossibleSimilarity
  rcases Nat.eq_zero_or_pos x.length with hx | hx
  · rw [hx]
    simp
  · have hx0 : (0:ℚ) < (x.length : ℚ) := by exact_mod_cast hx
    rcases Nat.lt_or_ge x.length y.length with hxy | hxy
    · have hratio : (1:ℚ) < (y.length : ℚ) / (x.length : ℚ) := by
        rw [one_lt_div hx0]
        exact_mod_cast hxy
      rw [if_pos hratio, one_div_div, Nat.min_eq_left (le_of_lt hxy),
        Nat.max_eq_right (le_of_lt hxy)]
    · have hratio : ¬ (1:ℚ) < (y.length : ℚ) / (x.length : ℚ) := by
        rw [not_lt, div_le_one hx0]
        exact_mod_cast hxy
      rw [if_neg hratio, Nat.min_eq_right hxy, Nat.max_eq_left hxy]

theorem similarityMetric_le_gPS (x y : List Char) :
    similarityMetric x y ≤ greatestPossibleSimilarity x y := by
  rw [greatestPossibleSimilarity_eq, similarityMetric_eq]
  by_cases h : x.length = 0 ∨ y.length = 0
  · rw [if_pos h]
    positivity
  · rw [if_neg h]
    push_neg at h
    have hL1 := isMaxLcsLen_le_left (similarityLcsLen_isMax x y)
    have hL2 := isMaxLcsLen_le_right (similarityLcsLen_isMax x y)
    have hmax : (0:ℚ) < ((max x.length y.length : Nat) : ℚ) := by
      have hp : 0 < max x.length y.length := by omega
      exact_mod_cast hp
    refine (div_le_div_iff_of_pos_right hmax).mpr ?_
    have hLmin : similarityLcsLen x y ≤ min x.length y.length := le_min hL1 hL2
    exact_mod_cast hLmin

theorem similarityMetric_nonneg (x y : List Char) : 0 ≤ similarityMetric x y := by
  rw [similarityMetric_eq]
  by_cases h : x.length = 0 ∨ y.length = 0
  · rw [if_pos h]
  · rw [if_neg h]
    positivity

theorem pruned_not_emitted {x y : List Char} {t : ℚ}
    (h : greatestPossibleSimilarity x y < t) : ¬ t < similarityMetric x y := by
  have hle := similarityMetric_le_gPS x y
  intro hlt
  linarith

/-! ### Combinatorics of the pair loops of `processNames` -/

theorem mem_pairRow {n i : Nat} {p : Nat × Nat} :
    p ∈ (List.range n).filterMap (fun j => if j ≤ i then none else some (i, j)) ↔
      p.1 = i ∧ i < p.2 ∧ p.2 < n := by
  constructor
  · intro hp
    obtain ⟨j, hj, hfj⟩ := List.mem_filterMap.mp hp
    by_cases h : j ≤ i
    · simp [h] at hfj
    · rw [if_neg h] at hfj
      obtain rfl : (i, j) = p := Option.some.inj hfj
      exact ⟨rfl, by omega, List.mem_range.mp hj⟩
  · rintro ⟨h1, h2, h3⟩
    refine List.mem_filterMap.mpr ⟨p.2, List.mem_range.mpr h3, ?_⟩
    rw [if_neg (by omega)]
    obtain ⟨p1, p2⟩ := p
    simp only at h1 h2 ⊢
    rw [h1]

theorem mem_consideredPairs {n : Nat} {p : Nat × Nat} :
    p ∈ consideredPairs n ↔ p.1 < p.2 ∧ p.2 < n := by
  unfold consideredPairs
  rw [List.mem_flatMap]
  constructor
  · rintro ⟨i, _, hrow⟩
    obtain ⟨h1, h2, h3⟩ := mem_pairRow.mp hrow
    omega
  · rintro ⟨h1, h2⟩
    exact ⟨p.1, List.mem_range.mpr (by omega), mem_pairRow.mpr ⟨rfl, h1, h2⟩⟩

theorem pairRow_length (n i : Nat) :
    ((List.range n).filterMap (fun j => if j ≤ i then none else some (i, j))).length =
      n - (i + 1) := by
  induction n with
  | zero => simp
  | succ n ih =>
    rw [List.range_succ, List.filterMap_append, List.length_append, ih]
    by_cases h : n ≤ i
    · simp [h]
      omega
    · simp [h]
      omega

theorem sum_range_sub (n : Nat) :
    2 * ((List.range n).map (fun i => n - (i + 1))).sum = n * (n - 1) := by
  induction n with
  | zero => rfl
  | succ n ih =>
    rw [List.range_succ_eq_map, List.map_cons, List.sum_cons, List.map_map]
    have he : ((fun i => n + 1 - (i + 1)) ∘ Nat.succ) = fun i => n - (i + 1) := by
      funext i
      simp only [Function.comp]
      omega
    rw [he]
    simp only [Nat.add_sub_cancel]
    have haux : n * (n - 1) + 2 * n = n * (n + 1) := by
      cases n with
      | zero => rfl
      | succ m =>
        simp only [Nat.add_sub_cancel]
        ring
    rw [Nat.mul_comm (n + 1) n]
    linarith

theorem consideredPairs_length (n : Nat) :
    (consideredPairs n).length = n * (n - 1) / 2 := by
  have hflat : consideredPairs n =
      (List.map (fun i => (List.range n).filterMap
        (fun j => if j ≤ i then none else some (i, j))) (List.range n)).flatten := rfl
  rw [hflat, List.length_flatten, List.map_map]
  have hrow : (List.length ∘ fun i => (List.range n).filterMap
      (fun j => if j ≤ i then none else some (i, j))) = fun i => n - (i + 1) := by
    funext i
    exact pairRow_length n i
  rw [hrow]
  have h2 := sum_range_sub n
  omega

theorem consideredPairs_nodup (n : Nat) : (consideredPairs n).Nodup := by
  unfold consideredPairs
  refine List.nodup_flatMap.mpr ⟨?_, ?_⟩
  · intro i _
    refine List.Nodup.filterMap ?_ (List.nodup_range n)
    intro j1 j2 p hp1 hp2
    by_cases h1 : j1 ≤ i
    · simp [h1] at hp1
    · by_cases h2 : j2 ≤ i
      · simp [h2] at hp2
      · rw [if_neg h1] at hp1
        rw [if_neg h2] at hp2
        have e1 := Option.some.inj hp1
        have e2 := Option.some.inj hp2
        rw [← e2] at e1
        exact (Prod.mk.injEq _ _ _ _ ▸ e1).2
  · refine List.Pairwise.imp ?_ (List.pairwise_lt_range n)
    intro i1 i2 hlt p hp hq
    have h1 := (mem_pairRow.mp hp).1
    have h2 := (mem_pairRow.mp hq).1
    omega

theorem consideredPairs_pairwise (n : Nat) :
    (consideredPairs n).Pairwise
      (fun p q : Nat × Nat => p.1 < q.1 ∨ (p.1 = q.1 ∧ p.2 < q.2)) := by
  unfold consideredPairs
  refine List.pairwise_flatMap.mpr ⟨?_, ?_⟩
  · intro i _
    refine List.Pairwise.filterMap _ ?_ (List.pairwise_lt_range n)
    intro j1 j2 hlt p hp q hq
    by_cases h1 : j1 ≤ i
    · simp [h1] at hp
    · by_cases h2 : j2 ≤ i
      · simp [h2] at hq
      · rw [if_neg h1] at hp
        rw [if_neg h2] at hq
        obtain rfl := Option.some.inj hp
        obtain rfl := Option.some.inj hq
        right
        exact ⟨rfl, hlt⟩
  · refine List.Pairwise.imp ?_ (List.pairwise_lt_range n)
    intro i1 i2 hlt p hp q hq
    left
    rw [(mem_pairRow.mp hp).1, (mem_pairRow.mp hq).1]
    exact hlt

theorem filterMap_option_filter {α β : Type} (l : List α) (f : α → Option β)
    (p : β → Bool) :
    (l.filterMap f).filter p =
      l.filterMap (fun a => (f a).bind (fun b => if p b then some b else none)) := by
  induction l with
  | nil => rfl
  | cons a l ih =>
    cases hfa : f a with
    | none =>
      rw [List.filterMap_cons_none hfa, ih,
        ← List.filterMap_cons_none (a := a) (l := l) (by simp [hfa])]
    | some b =>
      rw [List.filterMap_cons_some hfa]
      by_cases hp : p b
      · rw [List.filter_cons_of_pos hp, ih,
          ← List.filterMap_cons_some (a := a) (l := l) (b := b) (by simp [hfa, hp])]
      · rw [List.filter_cons_of_neg (by simpa using hp), ih,
          ← List.filterMap_cons_none (a := a) (l := l) (by simp [hfa, hp])]

theorem filter_flatMap {α β : Type} (l : List α) (f : α → List β) (p : β → Bool) :
    (l.flatMap f).filter p = l.flatMap (fun a => (f a).filter p) := by
  induction l with
  | nil => rfl
  | cons a l ih =>
    rw [List.flatMap_cons, List.flatMap_cons, List.filter_append, ih]

theorem processNames_eq_filter (nameList : List (List Char)) (t : ℚ) :
    processNames nameList t =
      (consideredPairs nameList.length).filter
        (fun p => decide (t < similarityMetric
          (nameList.getD p.1 []) (nameList.getD p.2 []))) := by
  unfold processNames consideredPairs
  rw [filter_flatMap]
  refine List.flatMap_congr ?_
  intro i _
  rw [filterMap_option_filter]
  refine List.filterMap_congr ?_
  intro j _
  by_cases hij : j ≤ i
  · rw [if_pos hij, if_pos hij]
    rfl
  · rw [if_neg hij, if_neg hij]
    simp only [Option.some_bind, decide_eq_true_eq]
    by_cases hsim : t < similarityMetric (nameList.getD i []) (nameList.getD j [])
    · have hnp : ¬ greatestPossibleSimilarity (nameList.getD i []) (nameList.getD j []) < t := by
        intro hps
        exact pruned_not_emitted hps hsim
      rw [if_neg hnp, if_pos hsim]
    · rw [if_neg hsim, ite_self]

theorem similarityLcsLen_self (s : List Char) : similarityLcsLen s s = s.length :=
  isMaxLcsLen_unique (similarityLcsLen_isMax s s)
    ⟨⟨s, List.Sublist.refl s, List.Sublist.refl s, rfl⟩, fun _ hl _ => hl.length_le⟩

theorem align_self_full (s : List Char) : align s s s.length s.length = s.length :=
  isMaxLcsLen_unique (align_isMax s s)
    ⟨⟨s, List.Sublist.refl s, List.Sublist.refl s, rfl⟩, fun _ hl _ => hl.length_le⟩

theorem similarityMetric_comm (x y : List Char) :
    similarityMetric x y = similarityMetric y x := by
  rw [similarityMetric_eq, similarityMetric_eq,
    isMaxLcsLen_unique (similarityLcsLen_isMax x y)
      (isMaxLcsLen_comm (similarityLcsLen_isMax y x)),
    Nat.max_comm x.length y.length]
  exact if_congr or_comm rfl rfl

/-! ### The claims -/

/-- **C1**: `processNames` emits a match for exactly those pairs `(i, j)` with
`i` strictly before `j` in collection order whose similarity strictly exceeds
the threshold; it considers exactly `n*(n-1)/2` pairs of an `n`-element list
(each with `i < j`: no self-pairs, no pair twice), and matches appear in
visiting order (outer index ascending, inner ascending). -/
theorem processNames_matches_spec (nameList : List (List Char)) (t : ℚ) :
    processNames nameList t =
      (consideredPairs nameList.length).filter
        (fun p => decide (t < similarityMetric
          (nameList.getD p.1 []) (nameList.getD p.2 []))) ∧
    (consideredPairs nameList.length).length =
      nameList.length * (nameList.length - 1) / 2 ∧
    (consideredPairs nameList.length).Nodup ∧
    (∀ p ∈ consideredPairs nameList.length, p.1 < p.2 ∧ p.2 < nameList.length) ∧
    (processNames nameList t).Pairwise
      (fun p q : Nat × Nat => p.1 < q.1 ∨ (p.1 = q.1 ∧ p.2 < q.2)) := by
  refine ⟨processNames_eq_filter nameList t, consideredPairs_length _,
    consideredPairs_nodup _, ?_, ?_⟩
  · intro p hp
    exact mem_consideredPairs.mp hp
  · rw [processNames_eq_filter]
    exact List.Pairwise.sublist (List.filter_sublist _) (consideredPairs_pairwise _)

/-- Witness for C1 at the spec scenario `["count", "countt", "total"]` with
threshold `3/4`. -/
theorem processNames_matches_spec_witness :
    processNames [['c','o','u','n','t'], ['c','o','u','n','t','t'],
        ['t','o','t','a','l']] (3/4) =
      (consideredPairs 3).filter
        (fun p => decide ((3/4 : ℚ) < similarityMetric
          (([['c','o','u','n','t'], ['c','o','u','n','t','t'],
            ['t','o','t','a','l']] : List (List Char)).getD p.1 [])
          (([['c','o','u','n','t'], ['c','o','u','n','t','t'],
            ['t','o','t','a','l']] : List (List Char)).getD p.2 []))) :=
  (processNames_matches_spec _ _).1

/-- **C2**: for non-empty strings, `similarityMetric` returns `L / len1` where
`L` is the length of a longest common subsequence and `len1` the longer length. -/
theorem similarityMetric_eq_lcs_div_longer (a b : List Char)
    (ha : a ≠ []) (hb : b ≠ []) :
    ∃ L : Nat, IsMaxLcsLen a b L ∧
      similarityMetric a b = (L : ℚ) / ((max a.length b.length : Nat) : ℚ) := by
  refine ⟨similarityLcsLen a b, similarityLcsLen_isMax a b, ?_⟩
  rw [similarityMetric_eq, if_neg (by simp [List.length_eq_zero, ha, hb])]

/-- Witness for C2: `similarity("buffer", "fer") = 3/6 = 0.5`. -/
theorem similarityMetric_eq_lcs_div_longer_witness :
    (∃ L : Nat, IsMaxLcsLen ['b','u','f','f','e','r'] ['f','e','r'] L ∧
      similarityMetric ['b','u','f','f','e','r'] ['f','e','r'] =
        (L : ℚ) / ((max (['b','u','f','f','e','r'] : List Char).length
          (['f','e','r'] : List Char).length : Nat) : ℚ)) ∧
    similarityMetric ['b','u','f','f','e','r'] ['f','e','r'] = 1 / 2 := by
  constructor
  · exact similarityMetric_eq_lcs_div_longer _ _ (by decide) (by decide)
  · have h : simLcsLen ['b','u','f','f','e','r'] ['f','e','r'] = 3 := by decide
    simp only [similarityMetric]
    norm_num [h]

/-- **C3**: `similarity(a, b) <= min(|a|,|b|) / max(|a|,|b|)`, and the
length-ratio prune (skip when the computed bound is below the threshold) never
suppresses a pair whose similarity strictly exceeds the threshold. -/
theorem similarityMetric_le_length_bound (a b : List Char) (t : ℚ) :
    similarityMetric a b ≤
      ((min a.length b.length : Nat) : ℚ) / ((max a.length b.length : Nat) : ℚ) ∧
    (greatestPossibleSimilarity a b < t → ¬ t < similarityMetric a b) := by
  constructor
  · have h := similarityMetric_le_gPS a b
    rwa [greatestPossibleSimilarity_eq] at h
  · exact pruned_not_emitted

/-- Witness for C3 at a pruned pair: `("abcdef", "abc")` with threshold `3/4`. -/
theorem similarityMetric_le_length_bound_witness :
    (similarityMetric ['a','b','c','d','e','f'] ['a','b','c'] ≤
      ((min (['a','b','c','d','e','f'] : List Char).length
        (['a','b','c'] : List Char).length : Nat) : ℚ) /
      ((max (['a','b','c','d','e','f'] : List Char).length
        (['a','b','c'] : List Char).length : Nat) : ℚ)) ∧
    ¬ (3/4 : ℚ) < similarityMetric ['a','b','c','d','e','f'] ['a','b','c'] := by
  refine ⟨(similarityMetric_le_length_bound _ _ (3/4)).1,
    (similarityMetric_le_length_bound _ _ (3/4)).2 ?_⟩
  simp only [greatestPossibleSimilarity]
  norm_num

/-- **C4**: the similarity function is in fact symmetric — it internally swaps
so the longer string is always the denominator.  At the failing input of the
claim (the documentation example pair), `similarityMetric("fer", "buffer")`
returns `0.5`, not the documented `1.0`, the same value as the swapped call. -/
theorem similarityMetric_doc_example_symmetric :
    similarityMetric ['f','e','r'] ['b','u','f','f','e','r'] = 1 / 2 ∧
    similarityMetric ['b','u','f','f','e','r'] ['f','e','r'] = 1 / 2 := by
  have h : simLcsLen ['b','u','f','f','e','r'] ['f','e','r'] = 3 := by decide
  constructor <;> (simp only [similarityMetric]; norm_num [h])

/-- **C5**: for non-empty inputs, `longestCommonSubstring` returns a string
that is a subsequence of both inputs whose length is the LCS length the rolling
two-row program inside `similarityMetric` computes for the same pair. -/
theorem longestCommonSubstring_spec (a b : List Char) (ha : a ≠ []) (hb : b ≠ []) :
    ∃ l : List Char, longestCommonSubstring a b = some l ∧
      l.Sublist a ∧ l.Sublist b ∧ l.length = similarityLcsLen a b := by
  obtain ⟨l, hsome, hsa, hsb, hlen⟩ := lcsBack_full a b
  refine ⟨l, ?_, hsa, hsb, ?_⟩
  · unfold longestCommonSubstring
    rw [if_neg (by simp [List.length_eq_zero, ha, hb]), hsome]
    rfl
  · rw [hlen, similarityLcsLen_eq_align]

/-- Witness for C5 at `("buffer", "fer")`, whose reconstruction is `"fer"`. -/
theorem longestCommonSubstring_spec_witness :
    (∃ l : List Char,
      longestCommonSubstring ['b','u','f','f','e','r'] ['f','e','r'] = some l ∧
      l.Sublist ['b','u','f','f','e','r'] ∧ l.Sublist ['f','e','r'] ∧
      l.length = similarityLcsLen ['b','u','f','f','e','r'] ['f','e','r']) ∧
    longestCommonSubstring ['b','u','f','f','e','r'] ['f','e','r'] =
      some ['f','e','r'] :=
  ⟨longestCommonSubstring_spec _ _ (by decide) (by decide), by decide⟩

/-- **C6**: `similarity(s, s) = 1.0` for every non-empty `s`. -/
theorem similarityMetric_self_eq_one (s : List Char) (hs : s ≠ []) :
    similarityMetric s s = 1 := by
  rw [similarityMetric_eq, if_neg (by simp [List.length_eq_zero, hs]),
    similarityLcsLen_self, Nat.max_self]
  exact div_self (by simp [List.length_eq_zero, hs])

/-- Witness for C6 at `"count"`. -/
theorem similarityMetric_self_eq_one_witness :
    similarityMetric ['c','o','u','n','t'] ['c','o','u','n','t'] = 1 :=
  similarityMetric_self_eq_one _ (by decide)

/-- **C7**: `similarity(s, "") = similarity("", s) = 0` exactly, in either
argument position, for every `s`. -/
theorem similarityMetric_empty_eq_zero (s : List Char) :
    similarityMetric s [] = 0 ∧ similarityMetric [] s = 0 := by
  constructor <;> (rw [similarityMetric_eq]; simp)

/-- Witness for C7 at `"x"`. -/
theorem similarityMetric_empty_eq_zero_witness :
    similarityMetric ['x'] [] = 0 ∧ similarityMetric [] ['x'] = 0 :=
  similarityMetric_empty_eq_zero ['x']

/-- **C8**: with an empty input on either side, `longestCommonSubstring`
returns its empty sentinel (the `NULL`/`none` result carrying no characters). -/
theorem longestCommonSubstring_empty_none (a b : List Char)
    (h : a = [] ∨ b = []) : longestCommonSubstring a b = none := by
  unfold longestCommonSubstring
  rcases h with h | h <;> (subst h; simp)

/-- Witness for C8 at `("", "x")`. -/
theorem longestCommonSubstring_empty_none_witness :
    longestCommonSubstring [] ['x'] = none :=
  longestCommonSubstring_empty_none _ _ (Or.inl rfl)

/-- **C9 counterexample**: on two 256-character inputs the reconstruction
writes the terminator at buffer index `256 = MAX_LCS`, one past the end of the
256-byte `lcs` buffer — the claim fails as stated for all inputs. -/
theorem lcsBufferWrites_overflow_at_256 :
    ∃ ws : List Nat,
      lcsBufferWrites (List.replicate 256 'a') (List.replicate 256 'a') = some ws ∧
      ¬ ∀ idx ∈ ws, idx < MAX_LCS := by
  obtain ⟨_, hsome, _, _, _⟩ := lcsBack_full (List.replicate 256 'a') (List.replicate 256 'a')
  have halign : align (List.replicate 256 'a') (List.replicate 256 'a')
      (List.replicate 256 'a').length (List.replicate 256 'a').length = 256 := by
    rw [align_self_full]
    simp
  refine ⟨256 :: (List.range 256).reverse, ?_, ?_⟩
  · unfold lcsBufferWrites
    rw [if_neg (by simp), hsome]
    simp only [Option.map_some']
    rw [halign]
  · intro hall
    have h256 := hall 256 (by simp)
    simp [MAX_LCS] at h256

/-- **C9 amended**: whenever the shorter input has fewer than `MAX_LCS = 256`
characters, every buffer write (terminator included) lands strictly below
`MAX_LCS`; and the cap never alters the similarity computation itself — the
rolling program of `similarityMetric` happily produces LCS lengths above 256
(here `300` on two 300-character strings). -/
theorem lcsBufferWrites_in_bounds (a b : List Char)
    (h : min a.length b.length < MAX_LCS) :
    (∃ ws : List Nat, lcsBufferWrites a b = some ws ∧ ∀ idx ∈ ws, idx < MAX_LCS) ∧
    similarityLcsLen (List.replicate 300 'a') (List.replicate 300 'a') = 300 := by
  constructor
  · by_cases he : a.length = 0 ∨ b.length = 0
    · refine ⟨[], ?_, by simp⟩
      unfold lcsBufferWrites
      rw [if_pos he]
    · obtain ⟨_, hsome, _, _, _⟩ := lcsBack_full a b
      refine ⟨align a b b.length a.length ::
        (List.range (align a b b.length a.length)).reverse, ?_, ?_⟩
      · unfold lcsBufferWrites
        rw [if_neg he, hsome]
        rfl
      · have hle : align a b b.length a.length ≤ min a.length b.length :=
          le_min (isMaxLcsLen_le_left (align_isMax a b))
            (isMaxLcsLen_le_right (align_isMax a b))
        intro idx hidx
        rcases List.mem_cons.mp hidx with h1 | h1
        · omega
        · have hmem := List.mem_range.mp (List.mem_reverse.mp h1)
          omega
  · rw [similarityLcsLen_self]
    simp

/-- Witness for the amended C9 at `("ab", "ab")` (shorter length `2 < 256`). -/
theorem lcsBufferWrites_in_bounds_witness :
    (∃ ws : List Nat, lcsBufferWrites ['a','b'] ['a','b'] = some ws ∧
      ∀ idx ∈ ws, idx < MAX_LCS) ∧
    similarityLcsLen (List.replicate 300 'a') (List.replicate 300 'a') = 300 :=
  lcsBufferWrites_in_bounds ['a','b'] ['a','b'] (by decide)

/-- **C10**: on every table built by the recurrence, the backtracking loop
terminates: from any in-range start, with any iteration budget above `r + c`,
each iteration takes one of the three branches and the loop reaches its exit
condition (the result is never the divergence marker). -/
theorem lcsBack_loop_terminates (a b : List Char) (r c fuel : Nat)
    (hr : r ≤ b.length) (hc : c ≤ a.length) (hfuel : r + c < fuel) :
    (lcsBack a b fuel r c).isSome = true := by
  obtain ⟨l, hsome, _, _, _⟩ := lcsBack_main a b fuel r c hr hc hfuel
  rw [hsome]
  rfl

/-- Witness for C10 at `("ab", "ab")` from the bottom-right corner. -/
theorem lcsBack_loop_terminates_witness :
    (lcsBack ['a','b'] ['a','b'] 5 2 2).isSome = true :=
  lcsBack_loop_terminates _ _ _ _ _ (by decide) (by decide) (by decide)

end UniqueVariableNames
